import Mathlib

set_option maxRecDepth 8000

namespace Rsync

/-! Shallow embedding of the librsync-rs pipeline (signature, delta, patch).
The crate under verification is a binding: the algorithmic engine (checksums,
wire codec, matcher, applier) lives in the native librsync library and the
streaming driver lives in a module not present under src/.  Those parts are
modelled from the spec (sections 4, 6, 7, 8 of spec.md), pinned down by the
golden test vectors kept in src/src/lib.rs.  The parts that are present in
src/src/lib.rs (constructors, error mapping, the patch copy callback) are
translated directly from that file. -/

/-- Big-endian encoding of a value into exactly k bytes, most significant first,
as used by the signature and delta wire formats (spec section 6). -/
def beBytes : Nat → Nat → List Nat
  | 0, _ => []
  | k+1, v => beBytes k (v / 256) ++ [v % 256]

/-- Big-endian decoding of a byte list into a value. -/
def beVal (bs : List Nat) : Nat :=
  bs.foldl (fun a b => a * 256 + b) 0

/-- Little-endian encoding of a value into exactly k bytes, least significant
first, as used inside MD4 and BLAKE2b. -/
def leBytes : Nat → Nat → List Nat
  | 0, _ => []
  | k+1, v => (v % 256) :: leBytes k (v / 256)

/-- The segment of a list starting at off with len elements (clipped at the
end), modelling a seek followed by an exact read of a byte buffer. -/
def seg (l : List Nat) (off len : Nat) : List Nat :=
  (l.drop off).take len

/-- Bitwise conjunction computed digit by digit with explicit fuel
(64 bits covers every machine word used by the hashes). -/
def bitAndF : Nat → Nat → Nat → Nat
  | 0, _, _ => 0
  | f+1, x, y => (x % 2) * (y % 2) + 2 * bitAndF f (x / 2) (y / 2)

/-- Bitwise disjunction computed digit by digit with explicit fuel. -/
def bitOrF : Nat → Nat → Nat → Nat
  | 0, _, _ => 0
  | f+1, x, y => (x % 2 + y % 2 - (x % 2) * (y % 2)) + 2 * bitOrF f (x / 2) (y / 2)

/-- Bitwise exclusive or computed digit by digit with explicit fuel. -/
def bitXorF : Nat → Nat → Nat → Nat
  | 0, _, _ => 0
  | f+1, x, y => (x % 2 + y % 2) % 2 + 2 * bitXorF f (x / 2) (y / 2)

/-- 64-bit-wide bitwise and. -/
def band (x y : Nat) : Nat := bitAndF 64 x y

/-- 64-bit-wide bitwise or. -/
def bor (x y : Nat) : Nat := bitOrF 64 x y

/-- 64-bit-wide bitwise xor. -/
def bxor (x y : Nat) : Nat := bitXorF 64 x y

/-- Complement of a 32-bit value. -/
def bnot32 (x : Nat) : Nat := (2^32 - 1) - x

/-- Left rotation of a 32-bit value by s places (0 < s < 32). -/
def rotl32 (s x : Nat) : Nat :=
  (x * 2^s + x / 2^(32 - s)) % 2^32

/-- Right rotation of a 64-bit value by s places (0 < s < 64). -/
def rotr64 (s x : Nat) : Nat :=
  (x / 2^s + x * 2^(64 - s)) % 2^64

/-! ## MD4 (RFC 1320), the default strong hash of the signature format.
Modelled from the spec: the StrongHash component (spec section 4.2) names the
MD4 family; the native implementation is not part of src/.  The definition
below is the standard MD4 of RFC 1320, validated against the golden signature
vector of the test corpus. -/

/-- MD4 auxiliary function F. -/
def md4F (x y z : Nat) : Nat := bor (band x y) (band (bnot32 x) z)

/-- MD4 auxiliary function G. -/
def md4G (x y z : Nat) : Nat := bor (bor (band x y) (band x z)) (band y z)

/-- MD4 auxiliary function H. -/
def md4H (x y z : Nat) : Nat := bxor (bxor x y) z

/-- MD4 padding: append 0x80, zero bytes up to 56 mod 64, then the bit length
as 8 little-endian bytes. -/
def md4Pad (msg : List Nat) : List Nat :=
  let r := (msg.length + 1) % 64
  let zeros := (64 + 56 - r) % 64
  msg ++ [0x80] ++ List.replicate zeros 0 ++ leBytes 8 (8 * msg.length)

/-- Group a byte list into little-endian 32-bit words (fuel-driven). -/
def toWordsLE : Nat → List Nat → List Nat
  | 0, _ => []
  | _, [] => []
  | f+1, bs =>
    beVal (bs.take 4).reverse :: toWordsLE f (bs.drop 4)

/-- One MD4 operation: update the first register and rotate the register
tuple, so that a fold over a (word index, shift) table performs a round. -/
def md4Op (f : Nat → Nat → Nat → Nat) (c : Nat) (X : List Nat)
    (st : Nat × Nat × Nat × Nat) (ks : Nat × Nat) : Nat × Nat × Nat × Nat :=
  let (a, b, c', d) := st
  let a' := rotl32 ks.2 ((a + f b c' d + X.getD ks.1 0 + c) % 2^32)
  (d, a', b, c')

/-- Word/shift schedule for MD4 round 1. -/
def md4R1 : List (Nat × Nat) :=
  [(0,3),(1,7),(2,11),(3,19),(4,3),(5,7),(6,11),(7,19),
   (8,3),(9,7),(10,11),(11,19),(12,3),(13,7),(14,11),(15,19)]

/-- Word/shift schedule for MD4 round 2. -/
def md4R2 : List (Nat × Nat) :=
  [(0,3),(4,5),(8,9),(12,13),(1,3),(5,5),(9,9),(13,13),
   (2,3),(6,5),(10,9),(14,13),(3,3),(7,5),(11,9),(15,13)]

/-- Word/shift schedule for MD4 round 3. -/
def md4R3 : List (Nat × Nat) :=
  [(0,3),(8,9),(4,11),(12,15),(2,3),(10,9),(6,11),(14,15),
   (1,3),(9,9),(5,11),(13,15),(3,3),(11,9),(7,11),(15,15)]

/-- MD4 compression of one 16-word block into the running state. -/
def md4Block (st : Nat × Nat × Nat × Nat) (X : List Nat) : Nat × Nat × Nat × Nat :=
  let s1 := md4R1.foldl (md4Op md4F 0 X) st
  let s2 := md4R2.foldl (md4Op md4G 0x5a827999 X) s1
  let s3 := md4R3.foldl (md4Op md4H 0x6ed9eba1 X) s2
  ((st.1 + s3.1) % 2^32,
   (st.2.1 + s3.2.1) % 2^32,
   (st.2.2.1 + s3.2.2.1) % 2^32,
   (st.2.2.2 + s3.2.2.2) % 2^32)

/-- Split a list into chunks of sz elements (fuel-driven); the final chunk may
be shorter.  The empty list yields no chunks. -/
def chunksOf (sz : Nat) : Nat → List Nat → List (List Nat)
  | 0, _ => []
  | _+1, [] => []
  | f+1, b :: bs => (b :: bs).take sz :: chunksOf sz f ((b :: bs).drop sz)

/-- The full MD4 digest (16 bytes) of a byte message. -/
def md4 (msg : List Nat) : List Nat :=
  let padded := md4Pad msg
  let blocks := chunksOf 64 padded.length padded
  let st := blocks.foldl (fun st blk => md4Block st (toWordsLE 16 blk))
    (0x67452301, 0xefcdab89, 0x98badcfe, 0x10325476)
  leBytes 4 st.1 ++ leBytes 4 st.2.1 ++ leBytes 4 st.2.2.1 ++ leBytes 4 st.2.2.2

/-! ## BLAKE2b-256, the alternative strong hash.
Modelled from the spec: the StrongHash component (spec section 4.2) names the
BLAKE2 family; librsync uses BLAKE2b with a 32-byte digest.  Standard RFC 7693
definition. -/

/-- Group a byte list into little-endian words of w bytes each (fuel-driven). -/
def toWords (w : Nat) : Nat → List Nat → List Nat
  | 0, _ => []
  | _, [] => []
  | f+1, bs => beVal (bs.take w).reverse :: toWords w f (bs.drop w)

/-- The BLAKE2b initialization vector (SHA-512 constants). -/
def b2IV : List Nat :=
  [0x6a09e667f3bcc908, 0xbb67ae8584caa73b, 0x3c6ef372fe94f82b, 0xa54ff53a5f1d36f1,
   0x510e527fade682d1, 0x9b05688c2b3e6c1f, 0x1f83d9abfb41bd6b, 0x5be0cd19137e2179]

/-- The BLAKE2b message schedule (ten permutations of 0..15). -/
def b2Sigma : List (List Nat) :=
  [[0,1,2,3,4,5,6,7,8,9,10,11,12,13,14,15],
   [14,10,4,8,9,15,13,6,1,12,0,2,11,7,5,3],
   [11,8,12,0,5,2,15,13,10,14,3,6,7,1,9,4],
   [7,9,3,1,13,12,11,14,2,6,5,10,4,0,15,8],
   [9,0,5,7,2,4,10,15,14,1,11,12,6,8,3,13],
   [2,12,6,10,0,11,8,3,4,13,7,5,15,14,1,9],
   [12,5,1,15,14,13,4,10,0,7,6,3,9,2,8,11],
   [13,11,7,14,12,1,3,9,5,0,15,4,8,6,2,10],
   [6,15,14,9,11,3,0,8,12,2,13,7,1,4,10,5],
   [10,2,8,4,7,6,1,5,15,11,9,14,3,12,13,0]]

/-- The BLAKE2b mixing function G acting on four positions of the working
vector with two message words. -/
def b2G (m : List Nat) (x y a b c d : Nat) (v : List Nat) : List Nat :=
  let va := (v.getD a 0 + v.getD b 0 + m.getD x 0) % 2^64
  let vd := rotr64 32 (bxor (v.getD d 0) va)
  let vc := (v.getD c 0 + vd) % 2^64
  let vb := rotr64 24 (bxor (v.getD b 0) vc)
  let va2 := (va + vb + m.getD y 0) % 2^64
  let vd2 := rotr64 16 (bxor vd va2)
  let vc2 := (vc + vd2) % 2^64
  let vb2 := rotr64 63 (bxor vb vc2)
  ((((v.set a va2).set b vb2).set c vc2).set d vd2)

/-- One BLAKE2b round using schedule row s. -/
def b2Round (m : List Nat) (v : List Nat) (s : List Nat) : List Nat :=
  let v := b2G m (s.getD 0 0) (s.getD 1 0) 0 4 8 12 v
  let v := b2G m (s.getD 2 0) (s.getD 3 0) 1 5 9 13 v
  let v := b2G m (s.getD 4 0) (s.getD 5 0) 2 6 10 14 v
  let v := b2G m (s.getD 6 0) (s.getD 7 0) 3 7 11 15 v
  let v := b2G m (s.getD 8 0) (s.getD 9 0) 0 5 10 15 v
  let v := b2G m (s.getD 10 0) (s.getD 11 0) 1 6 11 12 v
  let v := b2G m (s.getD 12 0) (s.getD 13 0) 2 7 8 13 v
  b2G m (s.getD 14 0) (s.getD 15 0) 3 4 9 14 v

/-- BLAKE2b compression of one 128-byte block; t is the byte counter, last
marks the final block. -/
def b2Compress (h : List Nat) (m : List Nat) (t : Nat) (last : Bool) : List Nat :=
  let v := h ++ b2IV
  let v := v.set 12 (bxor (b2IV.getD 4 0) (t % 2^64))
  let v := v.set 13 (bxor (b2IV.getD 5 0) (t / 2^64))
  let v := if last then v.set 14 (bxor (b2IV.getD 6 0) (2^64 - 1)) else v
  let v := ((List.range 12).map (fun r => b2Sigma.getD (r % 10) [])).foldl (b2Round m) v
  (List.range 8).map (fun i => bxor (h.getD i 0) (bxor (v.getD i 0) (v.getD (i + 8) 0)))

/-- BLAKE2b over the blocks of a message: all blocks but the last are full. -/
def b2Go (h : List Nat) (t : Nat) : List (List Nat) → List Nat
  | [] => h
  | blk :: rest =>
    if rest.isEmpty then
      b2Compress h (toWords 8 16 (blk ++ List.replicate (128 - blk.length) 0)) (t + blk.length) true
    else b2Go (b2Compress h (toWords 8 16 blk) (t + 128) false) (t + 128) rest

/-- The BLAKE2b-256 digest (32 bytes) of a byte message, digest-length
parameter 32 as used by librsync. -/
def blake2b256 (msg : List Nat) : List Nat :=
  let h0 := b2IV.set 0 (bxor (b2IV.getD 0 0) 0x01010020)
  let blocks := if msg.isEmpty then [[]] else chunksOf 128 msg.length msg
  ((b2Go h0 0 blocks).map (leBytes 8)).flatten.take 32

/-! ## Rolling (weak) checksum.
Modelled from the spec: RollingChecksum (spec section 4.1) is a two-component
Adler-style sum concatenated into the halves of a 32-bit value; the character
offset 31 and the modulus 2^16 are pinned by the golden signature vector
(spec section 8). -/

/-- The weak rolling checksum of a window: the low half is the sum of bytes
(each offset by 31) and the high half the sum of the running first sums, both
modulo 2^16. -/
def weakSum (w : List Nat) : Nat :=
  let p := w.foldl (fun (st : Nat × Nat) b => (st.1 + b + 31, st.2 + st.1 + b + 31)) (0, 0)
  (p.2 % 65536) * 65536 + p.1 % 65536

/-! ## Signature generation.
SignatureBuilder (spec sections 4.5 and 6): partition the base into blocks of
block_len bytes (final block possibly shorter), and emit the magic header,
block_len, strong_len, then one (weak, truncated strong) entry per block, all
integers big-endian.  Magic constants pinned by the golden vectors. -/

/-- The two hash kinds, as in src/src/lib.rs (enum SignatureType). -/
inductive SignatureType
  | MD4
  | Blake2
deriving DecidableEq, Repr

/-- The wire magic of each signature format (SignatureType::as_raw in
src/src/lib.rs maps MD4 and Blake2 to the native magic numbers). -/
def sigMagicVal : SignatureType → Nat
  | .MD4 => 0x72730136
  | .Blake2 => 0x72730137

/-- The wire magic of the delta format. -/
def deltaMagicVal : Nat := 0x72730236

/-- Full digest length of each hash kind, in bytes. -/
def hashLength : SignatureType → Nat
  | .MD4 => 16
  | .Blake2 => 32

/-- The strong checksum of a block: the digest truncated to strong_len bytes
(spec section 4.2). -/
def strongSum (k : SignatureType) (S : Nat) (blk : List Nat) : List Nat :=
  match k with
  | .MD4 => (md4 blk).take S
  | .Blake2 => (blake2b256 blk).take S

/-- One signature wire entry for a block: big-endian weak checksum, then the
truncated strong checksum. -/
def sigEntry (S : Nat) (k : SignatureType) (c : List Nat) : List Nat :=
  beBytes 4 (weakSum c) ++ strongSum k S c

/-- The signature wire bytes of a base, per spec section 6. -/
def signatureBytes (B S : Nat) (k : SignatureType) (base : List Nat) : List Nat :=
  beBytes 4 (sigMagicVal k) ++ beBytes 4 B ++ beBytes 4 S ++
    ((chunksOf B base.length base).map (sigEntry S k)).flatten

/-! ## Errors, as in src/src/lib.rs (enum Error and the From impl mapping the
native result codes; io::Error payloads are modelled by their kind). -/

/-- The io::ErrorKind values produced by the binding. -/
inductive RsIoKind
  | InvalidData
  | UnexpectedEof
  | WouldBlock
  | InvalidInput
  | Other
deriving DecidableEq, Repr

/-- The error enum of src/src/lib.rs. -/
inductive RsError
  | Io (k : RsIoKind)
  | Syntax
  | Mem
  | BadMagic
  | Unimplemented
  | Internal
  | Unknown (n : Int)
deriving DecidableEq, Repr

/-! ## Loading a signature (the sumset built by Delta::new).
Modelled from the spec: the native rs_loadsig job and rs_build_hash_table are
not part of src/.  The wire layout follows spec section 6; per spec section
4.4 the lookup structure preserves insertion (base block) order.  The wire
format stores no per-block offset or length: offsets are assigned
block_len-apart in order of appearance. -/

/-- One entry of the loaded sumset: the implied base offset, the weak checksum
and the truncated strong checksum. -/
structure SumBlock where
  offset : Nat
  weak : Nat
  strong : List Nat
deriving DecidableEq, Repr

/-- The loaded signature: configuration plus the entries in wire order. -/
structure Sumset where
  blockLen : Nat
  strongLen : Nat
  kind : SignatureType
  blocks : List SumBlock
deriving DecidableEq, Repr

/-- Parse the (weak, strong) entries of a signature body; a trailing fragment
shorter than one entry is an unexpected end of input. -/
def loadSigEntries (B S : Nat) : Nat → Nat → List Nat → Except RsError (List SumBlock)
  | 0, _, bs => if bs.isEmpty then .ok [] else .error .Internal
  | f+1, off, bs =>
    if bs.isEmpty then .ok []
    else if bs.length < 4 + S then .error (.Io .UnexpectedEof)
    else
      (loadSigEntries B S f (off + B) (bs.drop (4 + S))).map
        (fun rest => { offset := off, weak := beVal (bs.take 4), strong := seg bs 4 S } :: rest)

/-- Parse full signature bytes into a sumset: magic selects the hash kind
(unknown magic is BadMagic), then block_len and strong_len, then the entries. -/
def loadSig (bs : List Nat) : Except RsError Sumset :=
  if bs.length < 12 then .error (.Io .UnexpectedEof)
  else
    let magic := beVal (bs.take 4)
    if magic = sigMagicVal .MD4 ∨ magic = sigMagicVal .Blake2 then
      let k := if magic = sigMagicVal .MD4 then SignatureType.MD4 else SignatureType.Blake2
      let B := beVal (seg bs 4 4)
      let S := beVal (seg bs 8 4)
      if B = 0 ∨ S = 0 ∨ hashLength k < S then .error (.Io .InvalidData)
      else do
        let blks ← loadSigEntries B S bs.length 0 (bs.drop 12)
        .ok { blockLen := B, strongLen := S, kind := k, blocks := blks }
    else .error .BadMagic

/-! ## Delta computation (the matching engine).
Modelled from the spec, section 4.6: slide a window of block_len bytes over
the new data; look the window's weak sum up among the signature entries in
insertion order and confirm with the truncated strong sum; on a match flush
pending literal bytes, emit (or greedily extend, when the matched block is
contiguous with the pending one) a copy, and resynchronize past the match; on
a miss move one byte into the literal run.  Near the end of input the window
is the whole remainder, which is how the (possibly short) final base block can
match — the golden delta vector pins this behaviour down. -/

/-- A delta instruction (spec section 3). -/
inductive Instr
  | literal (bs : List Nat)
  | copy (off len : Nat)
deriving DecidableEq, Repr

/-- First signature entry whose weak and truncated strong checksums both match
the window, in insertion order (spec section 4.4: earliest block wins). -/
def findMatch (ss : Sumset) (window : List Nat) : Option SumBlock :=
  ss.blocks.find? (fun blk =>
    blk.weak == weakSum window && blk.strong == strongSum ss.kind ss.strongLen window)

/-- Append the pending literal run (if nonempty) as a literal instruction. -/
def flushLit (lit : List Nat) (acc : List Instr) : List Instr :=
  if lit.isEmpty then acc else acc ++ [.literal lit]

/-- Append the pending copy (if any) as a copy instruction. -/
def flushCopy (pend : Option (Nat × Nat)) (acc : List Instr) : List Instr :=
  match pend with
  | none => acc
  | some (o, l) => acc ++ [.copy o l]

/-- The matcher loop.  Arguments: fuel (at least the remaining length), the
remaining new data, the pending literal run, the pending coalescing copy, and
the instructions emitted so far. -/
def deltaLoop (ss : Sumset) : Nat → List Nat → List Nat → Option (Nat × Nat) → List Instr → List Instr
  | 0, _, lit, pend, acc => flushLit lit (flushCopy pend acc)
  | _+1, [], lit, pend, acc => flushLit lit (flushCopy pend acc)
  | f+1, b :: rest, lit, pend, acc =>
    let window := b :: rest.take (ss.blockLen - 1)
    match findMatch ss window with
    | some blk =>
      let acc1 := flushLit lit acc
      let w := window.length
      match pend with
      | some (o, l) =>
        if blk.offset = o + l then
          deltaLoop ss f (rest.drop (w - 1)) [] (some (o, l + w)) acc1
        else
          deltaLoop ss f (rest.drop (w - 1)) [] (some (blk.offset, w)) (acc1 ++ [.copy o l])
      | none => deltaLoop ss f (rest.drop (w - 1)) [] (some (blk.offset, w)) acc1
    | none => deltaLoop ss f rest (lit ++ [b]) none (flushCopy pend acc)

/-- The instruction sequence of the delta of newData against a sumset. -/
def deltaInstrs (ss : Sumset) (newData : List Nat) : List Instr :=
  deltaLoop ss newData.length newData [] none []

/-! ## Delta wire encoding (spec section 6; WireCodec, spec section 4.3).
Integers are emitted in the smallest of the 1, 2, 4 or 8 byte widths. -/

/-- Width class of a value: 0, 1, 2, 3 for 1, 2, 4, 8 bytes. -/
def sizeClass (v : Nat) : Nat :=
  if v < 2^8 then 0 else if v < 2^16 then 1 else if v < 2^32 then 2 else 3

/-- Wire encoding of one instruction: literal commands 0x41..0x44 carry the
length in 1, 2, 4 or 8 bytes; copy commands 0x45..0x54 carry offset then
length, each in the width selected by the command byte. -/
def encodeInstr : Instr → List Nat
  | .literal bs =>
    let c := sizeClass bs.length
    (0x41 + c) :: (beBytes (2^c) bs.length ++ bs)
  | .copy o l =>
    let co := sizeClass o
    let cl := sizeClass l
    (0x45 + 4 * co + cl) :: (beBytes (2^co) o ++ beBytes (2^cl) l)

/-- The delta wire bytes: magic header, encoded instructions, end command 0. -/
def deltaBytes (ss : Sumset) (newData : List Nat) : List Nat :=
  beBytes 4 deltaMagicVal ++ ((deltaInstrs ss newData).map encodeInstr).flatten ++ [0]

/-! ## Patch application.
Modelled from the spec, sections 4.7 and 6: decode commands and replay them,
reading copy spans in full from the randomly addressable base.  Command bytes
1..0x40 are immediate literal runs, 0x41..0x44 literal runs with an explicit
length, 0x45..0x54 copies, 0 the end marker; anything else is corrupt.  A copy
beyond the end of the base fails (spec section 4.7). -/

/-- Replay delta commands against a base.  Fuel is at least the remaining
byte count; acc is the output produced so far. -/
def applyCmds (base : List Nat) : Nat → List Nat → List Nat → Except RsError (List Nat)
  | 0, _, _ => .error .Internal
  | _+1, [], _ => .error (.Io .UnexpectedEof)
  | f+1, c :: rest, acc =>
    if c = 0 then .ok acc
    else if c ≤ 0x40 then
      if rest.length < c then .error (.Io .UnexpectedEof)
      else applyCmds base f (rest.drop c) (acc ++ rest.take c)
    else if c ≤ 0x44 then
      let n := 2^(c - 0x41)
      if rest.length < n then .error (.Io .UnexpectedEof)
      else
        let len := beVal (rest.take n)
        let rest1 := rest.drop n
        if rest1.length < len then .error (.Io .UnexpectedEof)
        else applyCmds base f (rest1.drop len) (acc ++ rest1.take len)
    else if c ≤ 0x54 then
      let i := c - 0x45
      let no := 2^(i / 4)
      let nl := 2^(i % 4)
      if rest.length < no + nl then .error (.Io .UnexpectedEof)
      else
        let off := beVal (rest.take no)
        let len := beVal (seg rest no nl)
        if off + len ≤ base.length then
          applyCmds base f (rest.drop (no + nl)) (acc ++ seg base off len)
        else .error (.Io .InvalidData)
    else .error (.Io .InvalidData)

/-- Apply delta wire bytes to a base: check the delta magic, then replay the
commands. -/
def applyDelta (base deltaB : List Nat) : Except RsError (List Nat) :=
  if deltaB.take 4 = beBytes 4 deltaMagicVal then
    applyCmds base deltaB.length (deltaB.drop 4) []
  else .error .BadMagic

/-- The whole pipeline of the integration test: signature of base, loaded
into a sumset, delta of newData against it, applied back to base. -/
def roundTrip (B S : Nat) (k : SignatureType) (base newData : List Nat) : Except RsError (List Nat) := do
  let ss ← loadSig (signatureBytes B S k base)
  applyDelta base (deltaBytes ss newData)

/-- The bytes one instruction contributes to the reconstructed output. -/
def resolveInstr (base : List Nat) : Instr → List Nat
  | .literal bs => bs
  | .copy o l => seg base o l

/-- Well-formedness of an instruction for a given base: copies lie inside the
base and every wire integer fits eight bytes. -/
def InstrOK (base : List Nat) : Instr → Prop
  | .literal bs => bs.length < 2^64
  | .copy o l => o + l ≤ base.length ∧ o < 2^64 ∧ l < 2^64

/-- The bytes the pending coalescing copy stands for. -/
def pendBytes (base : List Nat) : Option (Nat × Nat) → List Nat
  | none => []
  | some (o, l) => seg base o l

/-- The expected sumset entries of a base: one per chunk, offsets block_len
apart in order. -/
def chunkBlocks (B S : Nat) (k : SignatureType) : Nat → List (List Nat) → List SumBlock
  | _, [] => []
  | off, c :: cs =>
    { offset := off, weak := weakSum c, strong := strongSum k S c } :: chunkBlocks B S k (off + B) cs

/-- The sumset that loading the signature of a base is expected to produce. -/
def mkSumset (B S : Nat) (k : SignatureType) (base : List Nat) : Sumset :=
  { blockLen := B, strongLen := S, kind := k,
    blocks := chunkBlocks B S k 0 (chunksOf B base.length base) }

/-- The window the matcher examines at position p of the new data. -/
def windowAt (B : Nat) (l : List Nat) (p : Nat) : List Nat :=
  (l.drop p).take B

/-- Absence of truncated-hash collisions between the windows of the new data
and the signature entries of the base: whenever a window agrees with an entry
on both the weak and the truncated strong checksum, the base bytes at that
entry's offset really are the window.  Bool-valued so that concrete instances
evaluate. -/
def noCollision (base newData : List Nat) (ss : Sumset) : Bool :=
  (List.range newData.length).all (fun p =>
    ss.blocks.all (fun blk =>
      !(blk.weak == weakSum (windowAt ss.blockLen newData p) &&
        blk.strong == strongSum ss.kind ss.strongLen (windowAt ss.blockLen newData p)) ||
      seg base blk.offset (windowAt ss.blockLen newData p).length ==
        windowAt ss.blockLen newData p))

/-! ## Input sources.
Modelled from the spec: the streaming driver (JobDriver, in a module not under
src/) reads an input source chunk by chunk until end of input or an error
(spec section 4.8).  A source is the sequence of chunks it delivers, possibly
terminated by an error instead of end-of-input. -/

/-- A sequential byte source: the chunks successive reads return, and an
optional error the source fails with after them. -/
structure ByteSource where
  chunks : List (List Nat)
  tailErr : Option RsError

/-- Reading a source to the end (JobDriver::consume_input): all chunks
concatenated, or the source's error. -/
def consumeInput (s : ByteSource) : Except RsError (List Nat) :=
  match s.tailErr with
  | some e => .error e
  | none => .ok s.chunks.flatten

/-! ## The constructors of src/src/lib.rs. -/

/-- Modelled from the spec: rs_sig_begin (native) accepts the two known
signature magics and rejects anything else with a null job (spec section 7:
BadMagic is an unrecognized format header).  The job itself is opaque to the
binding. -/
def rsSigBegin (magic : Nat) : Option Unit :=
  if magic = sigMagicVal .MD4 ∨ magic = sigMagicVal .Blake2 then some () else none

/-- The state a successful Signature::new wraps: the configuration and the
input stream (src/src/lib.rs lines 133-144). -/
structure SignatureState where
  blockLen : Nat
  strongLen : Nat
  kind : SignatureType
  input : List Nat
deriving DecidableEq, Repr

/-- Signature::new with the raw magic visible: a null job from rs_sig_begin
becomes Err(Error::BadMagic), otherwise Ok (src/src/lib.rs lines 133-144). -/
def signatureNewRaw (input : List Nat) (B S magic : Nat) : Except RsError (Nat × Nat × Nat × List Nat) :=
  match rsSigBegin magic with
  | none => .error .BadMagic
  | some _ => .ok (B, S, magic, input)

namespace Signature

/-- Signature::new of src/src/lib.rs: passes SignatureType::as_raw to
rs_sig_begin and maps a null job to Err(Error::BadMagic). -/
def new (input : List Nat) (B S : Nat) (k : SignatureType) : Except RsError SignatureState :=
  match rsSigBegin (sigMagicVal k) with
  | none => .error .BadMagic
  | some _ => .ok { blockLen := B, strongLen := S, kind := k, input := input }

/-- The total output of a signature stream (the engine run to completion by
the driver). -/
def output (st : SignatureState) : List Nat :=
  signatureBytes st.blockLen st.strongLen st.kind st.input

end Signature

/-- The state a successful Delta::new wraps: the loaded sumset and the new
data stream; the signature source is consumed during construction and is not
part of the state (src/src/lib.rs lines 158-183). -/
structure DeltaState where
  sumset : Sumset
  newData : List Nat
deriving DecidableEq, Repr

namespace Delta

/-- Delta::new of src/src/lib.rs: eagerly consume the whole signature source
(JobDriver::consume_input on the rs_loadsig job), build the hash table, and
wrap the new-data stream; reading or decoding errors surface here.  The
native rs_build_hash_table and the rs_delta_begin null check cannot fail in
the model (a parsed sumset is always accepted). -/
def new (newData : List Nat) (baseSig : ByteSource) : Except RsError DeltaState :=
  match consumeInput baseSig with
  | .error e => .error e
  | .ok bytes =>
    match loadSig bytes with
    | .error e => .error e
    | .ok ss => .ok { sumset := ss, newData := newData }

/-- The total output of a delta stream: computed from the retained sumset and
the new data only. -/
def output (st : DeltaState) : List Nat :=
  deltaBytes st.sumset st.newData

end Delta

/-- Modelled from the spec: rs_patch_begin (native) always produces a job for
the copy callback; the binding merely asserts it is non-null
(src/src/lib.rs lines 197-208). -/
def rsPatchBegin : Option Unit := some ()

namespace Patch

/-- Patch::new of src/src/lib.rs: none models the aborted assertion on a null
job (not an Err value); otherwise construction always returns Ok wrapping the
base and the delta stream. -/
def new (base delta : List Nat) : Option (Except RsError (List Nat × List Nat)) :=
  match rsPatchBegin with
  | none => none
  | some _ => some (.ok (base, delta))

end Patch

/-! ## The streaming driver (pull harness).
Modelled from the spec, section 4.8: JobDriver lives in a module not under
src/.  The engine is abstracted by the sequence of step outcomes it would
produce; a pull serves buffered output first, otherwise takes the next engine
step; an error latches the driver into the Failed phase. -/

/-- One engine step outcome: produced output bytes, or a failure. -/
inductive EngineStep
  | out (bs : List Nat)
  | fail (e : RsError)
deriving DecidableEq, Repr

/-- The driver state: pending engine steps, buffered output not yet handed to
the caller, and the latched error of the Failed phase. -/
structure DriverState where
  steps : List EngineStep
  buf : List Nat
  failed : Option RsError
deriving DecidableEq, Repr

/-- One pull with the given capacity: a latched failure returns the same error
with the state untouched (the engine is not re-invoked); otherwise buffered
bytes are served, the next engine step is taken, and end-of-stream is an
empty read. -/
def pull (st : DriverState) (cap : Nat) : Except RsError (List Nat) × DriverState :=
  match st.failed with
  | some e => (.error e, st)
  | none =>
    if st.buf.isEmpty then
      match st.steps with
      | [] => (.ok [], st)
      | .out bs :: tl => (.ok (bs.take cap), { steps := tl, buf := bs.drop cap, failed := none })
      | .fail e :: _ => (.error e, { st with failed := some e })
    else
      (.ok (st.buf.take cap), { st with buf := st.buf.drop cap })

/-- Read a driver to the end: pull with the listed capacities (then capacity 1
once the list is exhausted) until an empty read, an error, or fuel runs out,
concatenating the returned bytes. -/
def drainDriver : Nat → List Nat → DriverState → List Nat
  | 0, _, _ => []
  | f+1, caps, st =>
    match pull st (caps.headD 1) with
    | (.error _, _) => []
    | (.ok bs, st') => if bs.isEmpty then [] else bs ++ drainDriver f caps.tail st'

/-- The driver of an engine that produces the given bytes and finishes. -/
def mkDriver (out : List Nat) : DriverState :=
  { steps := if out.isEmpty then [] else [.out out], buf := [], failed := none }

/-! ## The incremental signature builder.
Modelled from the spec, section 4.5: the SignatureBuilder state machine
buffers incoming base bytes, emits one wire entry per full block as soon as it
is available, and at end of input emits the final (possibly short) block's
entry behind the header. -/

/-- Builder state: buffered input not yet forming a full block, and the entry
bytes emitted so far. -/
structure SigBuildState where
  buf : List Nat
  entries : List Nat
deriving DecidableEq, Repr

/-- Emit entries for every full block currently buffered (fuel-driven). -/
def sigDrain (B S : Nat) (k : SignatureType) : Nat → SigBuildState → SigBuildState
  | 0, st => st
  | f+1, st =>
    if 0 < B ∧ B ≤ st.buf.length then
      sigDrain B S k f
        { buf := st.buf.drop B, entries := st.entries ++ sigEntry S k (st.buf.take B) }
    else st

/-- Feed one chunk of base data into the builder. -/
def sigFeed (B S : Nat) (k : SignatureType) (st : SigBuildState) (chunk : List Nat) : SigBuildState :=
  sigDrain B S k (st.buf.length + chunk.length) { st with buf := st.buf ++ chunk }

/-- End of input: the signature is the header, the emitted entries, and the
final short block's entry if any input remains buffered. -/
def sigFinish (B S : Nat) (k : SignatureType) (st : SigBuildState) : List Nat :=
  beBytes 4 (sigMagicVal k) ++ beBytes 4 B ++ beBytes 4 S ++ st.entries ++
    (if st.buf.isEmpty then [] else sigEntry S k st.buf)

/-- A whole incremental run over a chunked base stream. -/
def sigFeedAll (B S : Nat) (k : SignatureType) (chunks : List (List Nat)) : List Nat :=
  sigFinish B S k (chunks.foldl (sigFeed B S k) { buf := [], entries := [] })

/-! ## The patch copy callback of src/src/lib.rs (lines 312-328). -/

/-- A randomly addressable base reader; a single read call returns at most
maxRead bytes (the Read contract allows any short read). -/
structure SeekReader where
  data : List Nat
  maxRead : Nat
deriving DecidableEq, Repr

/-- The native result codes the callback can return. -/
inductive RsResult
  | Done
  | IoError
deriving DecidableEq, Repr

/-- Translated from patch_copy_cb in src/src/lib.rs: seek the base to pos,
issue ONE read into the len-byte buffer, and return RS_DONE — the number of
bytes that single read returned is discarded, and len is not updated. -/
def patchCopyCb (src : SeekReader) (pos len : Nat) : RsResult × List Nat :=
  let got := seg src.data pos (min len src.maxRead)
  (RsResult.Done, got)

/-- Modelled from the spec, section 4.7: read exactly len bytes from the base,
looping on short reads of the underlying source until the full span is
obtained (or the source is exhausted). -/
def readExactLoop (src : SeekReader) : Nat → Nat → Nat → List Nat
  | 0, _, _ => []
  | f+1, pos, len =>
    if len = 0 then []
    else
      let got := seg src.data pos (min len src.maxRead)
      if got.length = 0 then []
      else got ++ readExactLoop src f (pos + got.length) (len - got.length)

/-! ## The test corpus of src/src/lib.rs. -/

/-- The bytes of the test string DATA, "this is a string to be tested". -/
def testData : List Nat :=
  [0x74, 0x68, 0x69, 0x73, 0x20, 0x69, 0x73, 0x20, 0x61, 0x20, 0x73, 0x74,
   0x72, 0x69, 0x6e, 0x67, 0x20, 0x74, 0x6f, 0x20, 0x62, 0x65, 0x20, 0x74,
   0x65, 0x73, 0x74, 0x65, 0x64]

/-- The bytes of the test string DATA2, "this is another string to be tested". -/
def testData2 : List Nat :=
  [0x74, 0x68, 0x69, 0x73, 0x20, 0x69, 0x73, 0x20, 0x61, 0x6e, 0x6f, 0x74,
   0x68, 0x65, 0x72, 0x20, 0x73, 0x74, 0x72, 0x69, 0x6e, 0x67, 0x20, 0x74,
   0x6f, 0x20, 0x62, 0x65, 0x20, 0x74, 0x65, 0x73, 0x74, 0x65, 0x64]

/-- The golden signature vector (fn data_signature in src/src/lib.rs). -/
def goldenSignature : List Nat :=
  [0x72, 0x73, 0x01, 0x36, 0x00, 0x00, 0x00, 0x0a, 0x00, 0x00, 0x00, 0x05,
   0x1b, 0x21, 0x04, 0x8b, 0xad, 0x3c, 0xbd, 0x19, 0x09, 0x1d, 0x1b, 0x04,
   0xf0, 0x9d, 0x1f, 0x64, 0x31, 0xde, 0x15, 0xf4, 0x04, 0x87, 0x60, 0x96,
   0x19, 0x50, 0x39]

/-- The golden delta vector (fn data2_delta in src/src/lib.rs). -/
def goldenDelta : List Nat :=
  [0x72, 0x73, 0x02, 0x36, 0x41, 0x10, 0x74, 0x68, 0x69, 0x73, 0x20, 0x69,
   0x73, 0x20, 0x61, 0x6e, 0x6f, 0x74, 0x68, 0x65, 0x72, 0x20, 0x45, 0x0a,
   0x13, 0x00]

/-- A three-byte base whose single block collides with cexNew under the
configuration (block_len 3, strong_len 1, MD4): both byte triples share the
rolling checksum 45613404 and the first MD4 digest byte 171. -/
def cexBase : List Nat := [30, 195, 30]

/-- Three bytes different from cexBase that the matcher nevertheless treats
as a copy of cexBase's block, because both checksums collide. -/
def cexNew : List Nat := [33, 189, 33]

/-! ## Basic lemmas about the wire primitives. -/

theorem beBytes_length (k v : Nat) : (beBytes k v).length = k := by
  induction k generalizing v with
  | zero => rfl
  | succ k ih => simp [beBytes, ih]

theorem leBytes_length (k v : Nat) : (leBytes k v).length = k := by
  induction k generalizing v with
  | zero => rfl
  | succ k ih => simp [leBytes, ih]

theorem beVal_append_one (bs : List Nat) (b : Nat) :
    beVal (bs ++ [b]) = beVal bs * 256 + b := by
  simp [beVal, List.foldl_append]

theorem beVal_beBytes (k v : Nat) (h : v < 2^(8*k)) : beVal (beBytes k v) = v := by
  induction k generalizing v with
  | zero =>
    simp only [beBytes, beVal, List.foldl_nil]
    omega
  | succ k ih =>
    have hp : (2:Nat)^(8*(k+1)) = 2^(8*k) * 256 := by ring
    have h2 : v / 256 < 2^(8*k) := by
      rw [Nat.div_lt_iff_lt_mul (by norm_num : (0:Nat) < 256)]
      omega
    rw [beBytes, beVal_append_one, ih _ h2]
    omega

theorem weakSum_lt (w : List Nat) : weakSum w < 2^32 := by
  simp only [weakSum]
  omega

theorem md4_length (m : List Nat) : (md4 m).length = 16 := by
  simp [md4, leBytes_length]

theorem b2Compress_length (h m : List Nat) (t : Nat) (last : Bool) :
    (b2Compress h m t last).length = 8 := by
  simp [b2Compress]

theorem b2Go_length (blocks : List (List Nat)) :
    ∀ h t, h.length = 8 → (b2Go h t blocks).length = 8 := by
  induction blocks with
  | nil => intro h t hh; simpa [b2Go]
  | cons blk rest ih =>
    intro h t hh
    cases rest with
    | nil => simp [b2Go, b2Compress_length]
    | cons r rs =>
      rw [b2Go]
      simp only [List.isEmpty_cons, if_neg]
      exact ih _ _ (b2Compress_length _ _ _ _)

theorem flatten_leBytes_length (l : List Nat) :
    ((l.map (leBytes 8)).flatten).length = 8 * l.length := by
  induction l with
  | nil => simp
  | cons x xs ih => simp [leBytes_length, ih]; omega

theorem blake2b256_length (m : List Nat) : (blake2b256 m).length = 32 := by
  have hh : (b2Go (b2IV.set 0 (bxor (b2IV.getD 0 0) 0x01010020)) 0
      (if m.isEmpty then [[]] else chunksOf 128 m.length m)).length = 8 :=
    b2Go_length _ _ _ (by simp [b2IV])
  simp only [blake2b256, List.length_take, flatten_leBytes_length, hh]
  omega

theorem strongSum_length (k : SignatureType) (S : Nat) (c : List Nat)
    (hS : S ≤ hashLength k) : (strongSum k S c).length = S := by
  cases k <;> simp [hashLength] at hS <;>
    simp [strongSum, md4_length, blake2b256_length] <;> omega

theorem sigEntry_length (k : SignatureType) (S : Nat) (c : List Nat)
    (hS : S ≤ hashLength k) : (sigEntry S k c).length = 4 + S := by
  simp [sigEntry, beBytes_length, strongSum_length k S c hS]

theorem chunksOf_fuel (B : Nat) (hB : 0 < B) :
    ∀ f₁ f₂ l, l.length ≤ f₁ → l.length ≤ f₂ → chunksOf B f₁ l = chunksOf B f₂ l := by
  intro f₁
  induction f₁ with
  | zero =>
    intro f₂ l h1 h2
    have : l = [] := List.eq_nil_of_length_eq_zero (by omega)
    subst this
    cases f₂ <;> rfl
  | succ f ih =>
    intro f₂ l h1 h2
    cases l with
    | nil => cases f₂ <;> rfl
    | cons b bs =>
      cases f₂ with
      | zero => simp at h2
      | succ g =>
        rw [chunksOf, chunksOf]
        have hd : ((b :: bs).drop B).length ≤ f := by
          simp only [List.length_drop, List.length_cons] at h1 ⊢
          omega
        have hd2 : ((b :: bs).drop B).length ≤ g := by
          simp only [List.length_drop, List.length_cons] at h2 ⊢
          omega
        rw [ih _ _ hd hd2]

/-! ## Loading the signature of a base gives back its block summary. -/

theorem loadSigEntries_flatten (B S : Nat) (k : SignatureType) (hS : S ≤ hashLength k) :
    ∀ cs : List (List Nat), ∀ off f, ((cs.map (sigEntry S k)).flatten).length < f →
      loadSigEntries B S f off ((cs.map (sigEntry S k)).flatten) =
        .ok (chunkBlocks B S k off cs) := by
  intro cs
  induction cs with
  | nil =>
    intro off f h
    cases f with
    | zero => exact absurd h (Nat.not_lt_zero _)
    | succ f => simp [loadSigEntries, chunkBlocks]
  | cons c cs ih =>
    intro off f h
    have hel : (sigEntry S k c).length = 4 + S := sigEntry_length k S c hS
    rw [List.map_cons, List.flatten_cons] at h ⊢
    cases f with
    | zero => exact absurd h (Nat.not_lt_zero _)
    | succ f =>
      have hlen : (sigEntry S k c ++ (cs.map (sigEntry S k)).flatten).length
          = 4 + S + ((cs.map (sigEntry S k)).flatten).length := by
        simp [hel]
      have hie : (sigEntry S k c ++ (cs.map (sigEntry S k)).flatten).isEmpty = false := by
        rw [List.isEmpty_eq_false]
        intro he
        have := congrArg List.length he
        rw [hlen] at this
        simp at this
      have hnl : ¬ (sigEntry S k c ++ (cs.map (sigEntry S k)).flatten).length < 4 + S := by
        rw [hlen]; omega
      have h4 : (sigEntry S k c ++ (cs.map (sigEntry S k)).flatten).take 4
          = beBytes 4 (weakSum c) := by
        rw [sigEntry, List.append_assoc]
        exact List.take_left' (beBytes_length 4 _)
      have hseg : seg (sigEntry S k c ++ (cs.map (sigEntry S k)).flatten) 4 S
          = strongSum k S c := by
        rw [sigEntry, List.append_assoc, seg, List.drop_left' (beBytes_length 4 _)]
        exact List.take_left' (strongSum_length k S c hS)
      have hdrop : (sigEntry S k c ++ (cs.map (sigEntry S k)).flatten).drop (4 + S)
          = (cs.map (sigEntry S k)).flatten := List.drop_left' hel
      rw [loadSigEntries, hie]
      simp only [Bool.false_eq_true, if_false]
      rw [if_neg hnl, h4, hseg, hdrop, ih (off + B) f (by rw [hlen] at h; omega)]
      simp [Except.map, beVal_beBytes 4 _ (by rw [show (8:Nat)*4 = 32 by norm_num]; exact weakSum_lt c), chunkBlocks]

theorem loadSig_signatureBytes (B S : Nat) (k : SignatureType) (base : List Nat)
    (hB : 0 < B) (hB32 : B < 2^32) (hS : 0 < S) (hSmax : S ≤ hashLength k) :
    loadSig (signatureBytes B S k base) = .ok (mkSumset B S k base) := by
  have hmag32 : sigMagicVal k < 2^(8*4) := by cases k <;> decide
  have hB32' : B < 2^(8*4) := by norm_num; omega
  have hS32 : S < 2^(8*4) := by
    have : hashLength k ≤ 32 := by cases k <;> decide
    norm_num
    omega
  have hsb : signatureBytes B S k base
      = beBytes 4 (sigMagicVal k) ++ (beBytes 4 B ++ (beBytes 4 S ++
        ((chunksOf B base.length base).map (sigEntry S k)).flatten)) := by
    simp [signatureBytes]
  have hlen : (signatureBytes B S k base).length
      = 12 + (((chunksOf B base.length base).map (sigEntry S k)).flatten).length := by
    rw [hsb]
    simp [beBytes_length]
    omega
  have htake4 : (signatureBytes B S k base).take 4 = beBytes 4 (sigMagicVal k) := by
    rw [hsb]
    exact List.take_left' (beBytes_length 4 _)
  have hseg4 : seg (signatureBytes B S k base) 4 4 = beBytes 4 B := by
    rw [hsb, seg, List.drop_left' (beBytes_length 4 _)]
    exact List.take_left' (beBytes_length 4 _)
  have hseg8 : seg (signatureBytes B S k base) 8 4 = beBytes 4 S := by
    rw [hsb, seg, ← List.append_assoc, List.drop_left' (by simp [beBytes_length])]
    exact List.take_left' (beBytes_length 4 _)
  have hdrop12 : (signatureBytes B S k base).drop 12
      = ((chunksOf B base.length base).map (sigEntry S k)).flatten := by
    rw [hsb, ← List.append_assoc, ← List.append_assoc]
    exact List.drop_left' (by simp [beBytes_length])
  have hnl : ¬ (signatureBytes B S k base).length < 12 := by rw [hlen]; omega
  have hmagor : sigMagicVal k = sigMagicVal SignatureType.MD4 ∨
      sigMagicVal k = sigMagicVal SignatureType.Blake2 := by
    cases k
    · exact Or.inl rfl
    · exact Or.inr rfl
  have hkind : (if sigMagicVal k = sigMagicVal SignatureType.MD4 then SignatureType.MD4
      else SignatureType.Blake2) = k := by
    cases k <;> simp [sigMagicVal]
  rw [loadSig, if_neg hnl, htake4, beVal_beBytes 4 _ hmag32, if_pos hmagor, hkind, hseg4, hseg8,
    beVal_beBytes 4 _ hB32', beVal_beBytes 4 _ hS32, hdrop12,
    if_neg (show ¬ (B = 0 ∨ S = 0 ∨ hashLength k < S) by omega),
    loadSigEntries_flatten B S k hSmax _ 0 _ (by rw [hlen]; omega)]
  rfl

/-! ## List segment arithmetic. -/

theorem take_add' (m : Nat) (l : List Nat) (n : Nat) :
    l.take (m + n) = l.take m ++ (l.drop m).take n := by
  induction m generalizing l with
  | zero => simp
  | succ m ih =>
    cases l with
    | nil => simp
    | cons a l => simp [Nat.succ_add, ih]

theorem take_len_take (l : List Nat) (n : Nat) :
    l.take ((l.take n).length) = l.take n := by
  rw [List.length_take]
  rcases Nat.le_total n l.length with h | h
  · rw [Nat.min_eq_left h]
  · rw [Nat.min_eq_right h, List.take_length, List.take_of_length_le h]

theorem seg_length (l : List Nat) (o n : Nat) :
    (seg l o n).length = min n (l.length - o) := by
  simp [seg]

theorem seg_add (l : List Nat) (o a b : Nat) :
    seg l o (a + b) = seg l o a ++ seg l (o + a) b := by
  unfold seg
  rw [take_add', List.drop_drop]

/-! ## Resolving flushed instructions. -/

theorem flushLit_resolve (base : List Nat) (lit : List Nat) (acc : List Instr) :
    ((flushLit lit acc).map (resolveInstr base)).flatten
      = (acc.map (resolveInstr base)).flatten ++ lit := by
  unfold flushLit
  split
  · next h => simp [List.isEmpty_iff.mp h]
  · simp [resolveInstr]

theorem flushCopy_resolve (base : List Nat) (pend : Option (Nat × Nat)) (acc : List Instr) :
    ((flushCopy pend acc).map (resolveInstr base)).flatten
      = (acc.map (resolveInstr base)).flatten ++ pendBytes base pend := by
  cases pend with
  | none => simp [flushCopy, pendBytes]
  | some ol => cases ol with
    | mk o l => simp [flushCopy, pendBytes, resolveInstr]

theorem flushLit_mem (lit : List Nat) (acc : List Instr) (i : Instr)
    (h : i ∈ flushLit lit acc) : i ∈ acc ∨ i = .literal lit := by
  unfold flushLit at h
  split at h
  · exact Or.inl h
  · rcases List.mem_append.mp h with h | h
    · exact Or.inl h
    · exact Or.inr (List.mem_singleton.mp h)

theorem flushCopy_mem (pend : Option (Nat × Nat)) (acc : List Instr) (i : Instr)
    (h : i ∈ flushCopy pend acc) :
    i ∈ acc ∨ ∃ o l, pend = some (o, l) ∧ i = .copy o l := by
  cases pend with
  | none => exact Or.inl h
  | some ol =>
    cases ol with
    | mk o l =>
      rcases List.mem_append.mp h with h | h
      · exact Or.inl h
      · exact Or.inr ⟨o, l, rfl, List.mem_singleton.mp h⟩

/-- Flushing at end of input: if the invariant equation covers all of n, the
flushed instruction list resolves to n and is well formed. -/
theorem flush_sound (base n lit : List Nat) (pend : Option (Nat × Nat)) (acc : List Instr)
    (hn64 : n.length < 2^64) (hbase64 : base.length < 2^64)
    (hacc : ∀ i ∈ acc, InstrOK base i)
    (hpend : ∀ o l, pend = some (o, l) → o + l ≤ base.length)
    (hsplit : (acc.map (resolveInstr base)).flatten ++ pendBytes base pend ++ lit = n) :
    ((flushLit lit (flushCopy pend acc)).map (resolveInstr base)).flatten = n
      ∧ ∀ i ∈ flushLit lit (flushCopy pend acc), InstrOK base i := by
  constructor
  · rw [flushLit_resolve, flushCopy_resolve]
    exact hsplit
  · intro i hi
    rcases flushLit_mem _ _ _ hi with hi | hi
    · rcases flushCopy_mem _ _ _ hi with hi | ⟨o, l, hp, hie⟩
      · exact hacc i hi
      · subst hie
        have := hpend o l hp
        exact ⟨this, by omega, by omega⟩
    · subst hi
      have hl := congrArg List.length hsplit
      simp only [List.length_append] at hl
      exact (by simp only [InstrOK]; omega : InstrOK base (.literal lit))

/-! ## Soundness of the matcher loop. -/

theorem deltaLoop_sound (base n : List Nat) (ss : Sumset)
    (hB : 0 < ss.blockLen) (hbase64 : base.length < 2^64) (hn64 : n.length < 2^64)
    (H : ∀ p blk, p < n.length → blk ∈ ss.blocks →
      blk.weak = weakSum (windowAt ss.blockLen n p) →
      blk.strong = strongSum ss.kind ss.strongLen (windowAt ss.blockLen n p) →
      seg base blk.offset (windowAt ss.blockLen n p).length = windowAt ss.blockLen n p) :
    ∀ f p lit pend acc,
      n.length - p ≤ f → p ≤ n.length →
      (∀ i ∈ acc, InstrOK base i) →
      (∀ o l, pend = some (o, l) → o + l ≤ base.length) →
      (pend ≠ none → lit = []) →
      (acc.map (resolveInstr base)).flatten ++ pendBytes base pend ++ lit = n.take p →
      ((deltaLoop ss f (n.drop p) lit pend acc).map (resolveInstr base)).flatten = n
        ∧ ∀ i ∈ deltaLoop ss f (n.drop p) lit pend acc, InstrOK base i := by
  intro f
  induction f with
  | zero =>
    intro p lit pend acc hf hp hacc hpend hlp hsplit
    have hpn : p ≥ n.length := by omega
    have : n.take p = n := List.take_of_length_le hpn
    rw [this] at hsplit
    rw [deltaLoop]
    exact flush_sound base n lit pend acc hn64 hbase64 hacc hpend hsplit
  | succ f ih =>
    intro p lit pend acc hf hp hacc hpend hlp hsplit
    cases hrest : n.drop p with
    | nil =>
      have hpn : p ≥ n.length := by
        have := congrArg List.length hrest
        simp only [List.length_drop, List.length_nil] at this
        omega
      have : n.take p = n := List.take_of_length_le hpn
      rw [this] at hsplit
      rw [deltaLoop]
      exact flush_sound base n lit pend acc hn64 hbase64 hacc hpend hsplit
    | cons b rest' =>
      have hplt : p < n.length := by
        by_contra hc
        rw [List.drop_of_length_le (by omega)] at hrest
        cases hrest
      -- the window is the spec window at p
      have hwin : b :: rest'.take (ss.blockLen - 1) = windowAt ss.blockLen n p := by
        obtain ⟨m, hm⟩ : ∃ m, ss.blockLen = m + 1 := ⟨ss.blockLen - 1, by omega⟩
        rw [windowAt, hrest, hm]
        simp [List.take_succ_cons]
      have hwlen : (windowAt ss.blockLen n p).length = min ss.blockLen (n.length - p) := by
        simp [windowAt]
      have hwpos : 0 < (windowAt ss.blockLen n p).length := by
        rw [hwlen]
        omega
      have hwle : (windowAt ss.blockLen n p).length ≤ n.length - p := by
        rw [hwlen]; omega
      -- the window is an initial segment of the remainder of n
      have hwtake : (n.drop p).take ((windowAt ss.blockLen n p).length)
          = windowAt ss.blockLen n p := by
        rw [windowAt]
        exact take_len_take _ _
      have htakePw : n.take (p + (windowAt ss.blockLen n p).length)
          = n.take p ++ windowAt ss.blockLen n p := by
        rw [take_add', hwtake]
      have hdropw : rest'.drop ((windowAt ss.blockLen n p).length - 1)
          = n.drop (p + (windowAt ss.blockLen n p).length) := by
        have h1 : ((n.drop p).drop ((windowAt ss.blockLen n p).length))
            = n.drop (p + (windowAt ss.blockLen n p).length) := List.drop_drop _ _ _
        rw [← h1, hrest]
        cases hw : (windowAt ss.blockLen n p).length with
        | zero => omega
        | succ m => simp
      have hfuel : n.length - (p + (windowAt ss.blockLen n p).length) ≤ f := by omega
      have hple : p + (windowAt ss.blockLen n p).length ≤ n.length := by omega
      have hlitlen : lit.length ≤ n.length := by
        have hl := congrArg List.length hsplit
        simp only [List.length_append, List.length_take] at hl
        omega
      cases hfm : findMatch ss (windowAt ss.blockLen n p) with
      | some blk =>
        have hmem : blk ∈ ss.blocks := List.mem_of_find?_eq_some hfm
        have hpred := List.find?_some hfm
        rw [Bool.and_eq_true, beq_iff_eq, beq_iff_eq] at hpred
        obtain ⟨hweak, hstrong⟩ := hpred
        have hseg := H p blk hplt hmem hweak hstrong
        have hin : blk.offset + (windowAt ss.blockLen n p).length ≤ base.length := by
          have := congrArg List.length hseg
          rw [seg_length] at this
          omega
        cases pend with
        | none =>
          simp only [deltaLoop]
          rw [hwin]
          simp only [hfm]
          rw [hdropw]
          apply ih _ _ _ _ hfuel hple
          · intro i hi
            rcases flushLit_mem _ _ _ hi with hi | hi
            · exact hacc i hi
            · subst hi
              simp only [InstrOK]
              omega
          · intro o l hol
            cases hol
            exact hin
          · intro _
            rfl
          · rw [flushLit_resolve, htakePw, ← hsplit]
            simp [pendBytes, hseg]
        | some ol =>
          obtain ⟨o, l⟩ := ol
          have hlit : lit = [] := hlp (by simp)
          subst hlit
          have hol : o + l ≤ base.length := hpend o l rfl
          simp only [deltaLoop]
          rw [hwin]
          simp only [hfm]
          by_cases hco : blk.offset = o + l
          · rw [if_pos hco, hdropw]
            apply ih _ _ _ _ hfuel hple
            · intro i hi
              rcases flushLit_mem _ _ _ hi with hi | hi
              · exact hacc i hi
              · subst hi
                simp [InstrOK]
            · intro o' l' hol'
              cases hol'
              omega
            · intro _
              rfl
            · rw [flushLit_resolve]
              simp only [List.append_nil] at hsplit ⊢
              rw [htakePw, ← hsplit]
              simp only [pendBytes]
              rw [seg_add, ← hco, hseg]
              exact (List.append_assoc _ _ _).symm
          · rw [if_neg hco, hdropw]
            apply ih _ _ _ _ hfuel hple
            · intro i hi
              rcases List.mem_append.mp hi with hi | hi
              · rcases flushLit_mem _ _ _ hi with hi | hi
                · exact hacc i hi
                · subst hi
                  simp [InstrOK]
              · rw [List.mem_singleton.mp hi]
                exact ⟨hol, by omega, by omega⟩
            · intro o' l' hol'
              cases hol'
              exact hin
            · intro _
              rfl
            · rw [List.map_append, List.flatten_append, flushLit_resolve]
              simp only [List.append_nil] at hsplit ⊢
              rw [htakePw, ← hsplit]
              simp [pendBytes, resolveInstr, hseg]
      | none =>
        have hb : n.take (p + 1) = n.take p ++ [b] := by
          rw [take_add', hrest]
          rfl
        have hdrop1 : rest' = n.drop (p + 1) := by
          have h1 : ((n.drop p).drop 1) = n.drop (p + 1) := List.drop_drop _ _ _
          rw [← h1, hrest]
          rfl
        simp only [deltaLoop]
        rw [hwin]
        simp only [hfm]
        rw [hdrop1]
        apply ih _ _ _ _ (by omega) (by omega)
        · intro i hi
          rcases flushCopy_mem _ _ _ hi with hi | ⟨o, l, hpe, hie⟩
          · exact hacc i hi
          · subst hie
            have := hpend o l hpe
            exact ⟨this, by omega, by omega⟩
        · intro o l h
          cases h
        · intro h
          exact absurd rfl h
        · rw [flushCopy_resolve, hb, ← hsplit]
          simp [pendBytes]

/-! ## Decoding what the encoder emitted. -/

theorem sizeClass_le (v : Nat) : sizeClass v ≤ 3 := by
  unfold sizeClass
  split
  · omega
  · split
    · omega
    · split <;> omega

theorem lt_sizeClass_bound (v : Nat) (h : v < 2^64) : v < 2^(8 * 2^(sizeClass v)) := by
  unfold sizeClass
  split
  · next h1 => simpa using h1
  · split
    · next h2 => simpa using h2
    · split
      · next h3 => simpa using h3
      · simpa using h

theorem applyCmds_end (base : List Nat) (f : Nat) (junk acc : List Nat) :
    applyCmds base (f+1) (0 :: junk) acc = .ok acc := by
  simp [applyCmds]

theorem applyCmds_literal (base : List Nat) (f : Nat) (bs rest acc : List Nat)
    (h64 : bs.length < 2^64) :
    applyCmds base (f+1) (encodeInstr (.literal bs) ++ rest) acc
      = applyCmds base f rest (acc ++ bs) := by
  have hc3 : sizeClass bs.length ≤ 3 := sizeClass_le _
  have hbound : bs.length < 2^(8 * 2^(sizeClass bs.length)) := lt_sizeClass_bound _ h64
  rw [encodeInstr]
  simp only [List.cons_append]
  rw [applyCmds]
  rw [if_neg (by omega), if_neg (by omega), if_pos (by omega)]
  have hsub : 0x41 + sizeClass bs.length - 0x41 = sizeClass bs.length := by omega
  rw [hsub, List.append_assoc]
  rw [if_neg (by
    simp only [List.length_append, beBytes_length]
    omega)]
  rw [List.take_left' (beBytes_length _ _), List.drop_left' (beBytes_length _ _),
    beVal_beBytes _ _ hbound]
  rw [if_neg (by simp only [List.length_append]; omega)]
  rw [List.take_left, List.drop_left]

theorem applyCmds_copy (base : List Nat) (f : Nat) (o l : Nat) (rest acc : List Nat)
    (hin : o + l ≤ base.length) (h64o : o < 2^64) (h64l : l < 2^64) :
    applyCmds base (f+1) (encodeInstr (.copy o l) ++ rest) acc
      = applyCmds base f rest (acc ++ seg base o l) := by
  have hco3 : sizeClass o ≤ 3 := sizeClass_le _
  have hcl3 : sizeClass l ≤ 3 := sizeClass_le _
  have hbo : o < 2^(8 * 2^(sizeClass o)) := lt_sizeClass_bound _ h64o
  have hbl : l < 2^(8 * 2^(sizeClass l)) := lt_sizeClass_bound _ h64l
  rw [encodeInstr]
  simp only [List.cons_append]
  rw [applyCmds]
  rw [if_neg (by omega), if_neg (by omega), if_neg (by omega), if_pos (by omega)]
  have hi : 0x45 + 4 * sizeClass o + sizeClass l - 0x45 = 4 * sizeClass o + sizeClass l := by
    omega
  have hdiv : (4 * sizeClass o + sizeClass l) / 4 = sizeClass o := by omega
  have hmod : (4 * sizeClass o + sizeClass l) % 4 = sizeClass l := by omega
  rw [hi]
  dsimp only
  rw [hdiv, hmod, List.append_assoc]
  rw [if_neg (by
    simp only [List.length_append, beBytes_length]
    omega)]
  rw [List.take_left' (beBytes_length _ _)]
  have hseg : seg (beBytes (2^(sizeClass o)) o ++ (beBytes (2^(sizeClass l)) l ++ rest))
      (2^(sizeClass o)) (2^(sizeClass l)) = beBytes (2^(sizeClass l)) l := by
    rw [seg, List.drop_left' (beBytes_length _ _)]
    exact List.take_left' (beBytes_length _ _)
  rw [hseg, beVal_beBytes _ _ hbo, beVal_beBytes _ _ hbl, if_pos hin]
  have hdrop : (beBytes (2^(sizeClass o)) o ++ (beBytes (2^(sizeClass l)) l ++ rest)).drop
      (2^(sizeClass o) + 2^(sizeClass l)) = rest := by
    rw [← List.append_assoc]
    exact List.drop_left' (by simp [beBytes_length])
  rw [hdrop]

theorem encodeInstr_length_pos (i : Instr) : 0 < (encodeInstr i).length := by
  cases i <;> simp [encodeInstr]

theorem len_le_flatten_encode (instrs : List Instr) :
    instrs.length ≤ ((instrs.map encodeInstr).flatten).length := by
  induction instrs with
  | nil => simp
  | cons i tl ih =>
    simp only [List.map_cons, List.flatten_cons, List.length_append, List.length_cons]
    have := encodeInstr_length_pos i
    omega

theorem applyCmds_encode (base : List Nat) :
    ∀ (instrs : List Instr) (f : Nat) (acc : List Nat),
      (∀ i ∈ instrs, InstrOK base i) → instrs.length < f →
      applyCmds base f ((instrs.map encodeInstr).flatten ++ [0]) acc
        = .ok (acc ++ (instrs.map (resolveInstr base)).flatten) := by
  intro instrs
  induction instrs with
  | nil =>
    intro f acc _ hf
    obtain ⟨f', rfl⟩ : ∃ f', f = f' + 1 := ⟨f - 1, by omega⟩
    simpa using applyCmds_end base f' [] acc
  | cons i tl ih =>
    intro f acc hok hf
    obtain ⟨f', rfl⟩ : ∃ f', f = f' + 1 := ⟨f - 1, by omega⟩
    rw [List.map_cons, List.flatten_cons, List.append_assoc]
    have hi := hok i (by simp)
    cases i with
    | literal bs =>
      simp only [InstrOK] at hi
      rw [applyCmds_literal base f' bs _ acc hi]
      rw [ih f' (acc ++ bs) (fun j hj => hok j (by simp [hj])) (by
        simp only [List.length_cons] at hf
        omega)]
      simp [resolveInstr, List.append_assoc]
    | copy o l =>
      simp only [InstrOK] at hi
      obtain ⟨ho, h64o, h64l⟩ := hi
      rw [applyCmds_copy base f' o l _ acc ho h64o h64l]
      rw [ih f' (acc ++ seg base o l) (fun j hj => hok j (by simp [hj])) (by
        simp only [List.length_cons] at hf
        omega)]
      simp [resolveInstr, List.append_assoc]

theorem applyDelta_encode (base : List Nat) (instrs : List Instr)
    (hok : ∀ i ∈ instrs, InstrOK base i) :
    applyDelta base (beBytes 4 deltaMagicVal ++ ((instrs.map encodeInstr).flatten ++ [0]))
      = .ok ((instrs.map (resolveInstr base)).flatten) := by
  rw [applyDelta, if_pos (List.take_left' (beBytes_length 4 _)),
    List.drop_left' (beBytes_length 4 _)]
  have hlen : instrs.length <
      (beBytes 4 deltaMagicVal ++ ((instrs.map encodeInstr).flatten ++ [0])).length := by
    have := len_le_flatten_encode instrs
    simp only [List.length_append, beBytes_length, List.length_cons, List.length_nil]
    omega
  rw [applyCmds_encode base instrs _ [] hok hlen]
  simp

/-! ## The round-trip law under collision-freedom. -/

theorem noCollision_spec (base n : List Nat) (ss : Sumset)
    (h : noCollision base n ss = true) :
    ∀ p blk, p < n.length → blk ∈ ss.blocks →
      blk.weak = weakSum (windowAt ss.blockLen n p) →
      blk.strong = strongSum ss.kind ss.strongLen (windowAt ss.blockLen n p) →
      seg base blk.offset (windowAt ss.blockLen n p).length = windowAt ss.blockLen n p := by
  intro p blk hp hmem hw hs
  simp only [noCollision, List.all_eq_true, List.mem_range] at h
  have h2 := h p hp blk hmem
  have hb : (blk.weak == weakSum (windowAt ss.blockLen n p) &&
      blk.strong == strongSum ss.kind ss.strongLen (windowAt ss.blockLen n p)) = true := by
    rw [Bool.and_eq_true, beq_iff_eq, beq_iff_eq]
    exact ⟨hw, hs⟩
  rw [hb] at h2
  simp only [Bool.not_true, Bool.false_or, beq_iff_eq] at h2
  exact h2

theorem roundTrip_of_noCollision (B S : Nat) (k : SignatureType) (base n : List Nat)
    (hB : 0 < B) (hB32 : B < 2^32) (hS : 0 < S) (hSmax : S ≤ hashLength k)
    (hbase64 : base.length < 2^64) (hn64 : n.length < 2^64)
    (hnc : noCollision base n (mkSumset B S k base) = true) :
    roundTrip B S k base n = .ok n := by
  have hload := loadSig_signatureBytes B S k base hB hB32 hS hSmax
  have hstep : roundTrip B S k base n
      = applyDelta base (deltaBytes (mkSumset B S k base) n) := by
    rw [roundTrip, hload]
    rfl
  rw [hstep]
  have hsound := deltaLoop_sound base n (mkSumset B S k base) hB hbase64 hn64
    (noCollision_spec base n (mkSumset B S k base) hnc)
    n.length 0 [] none []
    (by omega) (by omega)
    (by intro i hi; cases hi)
    (by intro o l h; cases h)
    (by intro h; exact absurd rfl h)
    (by simp [pendBytes])
  simp only [List.drop_zero] at hsound
  obtain ⟨hres, hok⟩ := hsound
  have happ := applyDelta_encode base
    (deltaLoop (mkSumset B S k base) n.length n [] none []) hok
  rw [deltaBytes, deltaInstrs, List.append_assoc, happ, hres]

/-! ## The driver: pulls, latching, and full drains. -/

theorem pull_failed (stps : List EngineStep) (buf : List Nat) (e : RsError) (cap : Nat) :
    pull { steps := stps, buf := buf, failed := some e } cap
      = (.error e, { steps := stps, buf := buf, failed := some e }) := by
  simp [pull]

theorem pull_buf (stps : List EngineStep) (b : Nat) (bs : List Nat) (cap : Nat) :
    pull { steps := stps, buf := b :: bs, failed := none } cap
      = (.ok ((b :: bs).take cap),
         { steps := stps, buf := (b :: bs).drop cap, failed := none }) := by
  simp [pull]

theorem pull_eos (cap : Nat) :
    pull { steps := [], buf := [], failed := none } cap
      = (.ok [], { steps := [], buf := [], failed := none }) := by
  simp [pull]

theorem pull_out_step (bs : List Nat) (tl : List EngineStep) (cap : Nat) :
    pull { steps := .out bs :: tl, buf := [], failed := none } cap
      = (.ok (bs.take cap), { steps := tl, buf := bs.drop cap, failed := none }) := by
  simp [pull]

theorem pull_fail_step (e : RsError) (tl : List EngineStep) (cap : Nat) :
    pull { steps := .fail e :: tl, buf := [], failed := none } cap
      = (.error e, { steps := .fail e :: tl, buf := [], failed := some e }) := by
  simp [pull]

/-- Draining a driver whose engine has finished returns the buffered bytes,
whatever the (positive) capacities are. -/
theorem drainDriver_nil_steps :
    ∀ (f : Nat) (buf : List Nat) (caps : List Nat), buf.length < f →
      (∀ c ∈ caps, 0 < c) →
      drainDriver f caps { steps := [], buf := buf, failed := none } = buf := by
  intro f
  induction f with
  | zero => intro buf caps hf hc; exact absurd hf (Nat.not_lt_zero _)
  | succ f ih =>
    intro buf caps hf hc
    cases buf with
    | nil => simp [drainDriver, pull_eos]
    | cons b bs =>
      have hcap : 0 < caps.headD 1 := by
        cases caps with
        | nil => simp
        | cons c cs => exact hc c (by simp)
      obtain ⟨c', hc'⟩ : ∃ c', caps.headD 1 = c' + 1 := ⟨caps.headD 1 - 1, by omega⟩
      rw [drainDriver, pull_buf, hc']
      simp only [List.take_succ_cons, List.drop_succ_cons, List.isEmpty_cons,
        Bool.false_eq_true, if_false]
      have htl : ∀ c ∈ caps.tail, 0 < c := by
        cases caps with
        | nil => intro c hcm; cases hcm
        | cons x xs => intro c hcm; exact hc c (List.mem_cons_of_mem x hcm)
      have hlen : (bs.drop c').length < f := by
        simp only [List.length_drop]
        simp only [List.length_cons] at hf
        omega
      rw [ih (bs.drop c') caps.tail hlen htl]
      simp only [List.cons_append, List.take_append_drop]

/-- Reading a fresh driver of an engine that produced out to the end yields
exactly out, independently of the capacity schedule. -/
theorem drainDriver_mkDriver (out : List Nat) (f : Nat) (caps : List Nat)
    (hf : out.length + 1 < f) (hc : ∀ c ∈ caps, 0 < c) :
    drainDriver f caps (mkDriver out) = out := by
  cases out with
  | nil =>
    obtain ⟨f', rfl⟩ : ∃ f', f = f' + 1 := ⟨f - 1, by omega⟩
    simp [drainDriver, mkDriver, pull_eos]
  | cons b bs =>
    obtain ⟨f', rfl⟩ : ∃ f', f = f' + 1 := ⟨f - 1, by omega⟩
    have hcap : 0 < caps.headD 1 := by
      cases caps with
      | nil => simp
      | cons c cs => exact hc c (by simp)
    obtain ⟨c', hc'⟩ : ∃ c', caps.headD 1 = c' + 1 := ⟨caps.headD 1 - 1, by omega⟩
    have hmk : mkDriver (b :: bs)
        = { steps := [.out (b :: bs)], buf := [], failed := none } := by
      simp [mkDriver]
    rw [drainDriver, hmk, pull_out_step, hc']
    simp only [List.take_succ_cons, List.drop_succ_cons, List.isEmpty_cons,
      Bool.false_eq_true, if_false]
    have htl : ∀ c ∈ caps.tail, 0 < c := by
      cases caps with
      | nil => intro c hcm; cases hcm
      | cons x xs => intro c hcm; exact hc c (List.mem_cons_of_mem x hcm)
    have hlen : (bs.drop c').length < f' := by
      simp only [List.length_drop]
      simp only [List.length_cons] at hf
      omega
    rw [drainDriver_nil_steps f' (bs.drop c') caps.tail hlen htl]
    simp only [List.cons_append, List.take_append_drop]

/-- Once a pull has failed, every further pull returns the same error and
leaves the driver untouched (the engine is never re-invoked). -/
theorem pull_latches (st : DriverState) (cap : Nat) (e : RsError) (st' : DriverState)
    (h : pull st cap = (.error e, st')) :
    ∀ cap', pull st' cap' = (.error e, st') := by
  intro cap'
  have hfail : st'.failed = some e ∧ st'.steps = st.steps ∧ st'.buf = st.buf := by
    unfold pull at h
    cases hf : st.failed with
    | some e' =>
      rw [hf] at h
      cases h
      simp [hf]
    | none =>
      rw [hf] at h
      by_cases hb : st.buf.isEmpty
      · rw [if_pos hb] at h
        cases hs : st.steps with
        | nil => rw [hs] at h; cases h
        | cons s tl =>
          cases s with
          | out bs => rw [hs] at h; cases h
          | fail e' =>
            rw [hs] at h
            cases h
            simp
      · rw [if_neg hb] at h
        cases h
  obtain ⟨h1, h2, h3⟩ := hfail
  unfold pull
  rw [h1]

/-! ## The incremental builder emits the same signature as the one-shot one. -/

theorem chunksOf_cons_general (B : Nat) (hB : 0 < B) (l : List Nat) (hl : l ≠ []) :
    chunksOf B l.length l = l.take B :: chunksOf B (l.drop B).length (l.drop B) := by
  cases l with
  | nil => exact absurd rfl hl
  | cons x xs =>
    rw [show (x :: xs).length = xs.length + 1 from rfl, chunksOf]
    congr 1
    apply chunksOf_fuel B hB
    · simp only [List.length_drop, List.length_cons]
      omega
    · exact Nat.le_refl _

theorem ents_step (B S : Nat) (k : SignatureType) (hB : 0 < B) (X Q : List Nat)
    (hXB : B ≤ X.length) :
    ((chunksOf B (X ++ Q).length (X ++ Q)).map (sigEntry S k)).flatten
      = sigEntry S k (X.take B) ++
        ((chunksOf B (X.drop B ++ Q).length (X.drop B ++ Q)).map (sigEntry S k)).flatten := by
  have hne : X ++ Q ≠ [] := by
    intro h
    have := congrArg List.length h
    simp only [List.length_append, List.length_nil] at this
    omega
  rw [chunksOf_cons_general B hB (X ++ Q) hne, List.take_append_of_le_length hXB,
    List.drop_append_of_le_length hXB]
  simp

theorem sigDrain_spec (B S : Nat) (k : SignatureType) (hB : 0 < B) :
    ∀ (f : Nat) (X E Q : List Nat), X.length ≤ f →
      (sigDrain B S k f { buf := X, entries := E }).buf.length < B ∧
      (sigDrain B S k f { buf := X, entries := E }).entries ++
        ((chunksOf B ((sigDrain B S k f { buf := X, entries := E }).buf ++ Q).length
          ((sigDrain B S k f { buf := X, entries := E }).buf ++ Q)).map (sigEntry S k)).flatten
        = E ++ ((chunksOf B (X ++ Q).length (X ++ Q)).map (sigEntry S k)).flatten := by
  intro f
  induction f with
  | zero =>
    intro X E Q hf
    have hX : X = [] := List.eq_nil_of_length_eq_zero (by omega)
    subst hX
    rw [sigDrain]
    exact ⟨hB, rfl⟩
  | succ f ih =>
    intro X E Q hf
    simp only [sigDrain]
    by_cases hcond : 0 < B ∧ B ≤ X.length
    · rw [if_pos hcond]
      have hdl : (X.drop B).length ≤ f := by
        simp only [List.length_drop]
        omega
      obtain ⟨h1, h2⟩ := ih (X.drop B) (E ++ sigEntry S k (X.take B)) Q hdl
      refine ⟨h1, ?_⟩
      rw [h2, List.append_assoc]
      congr 1
      exact (ents_step B S k hB X Q hcond.2).symm
    · rw [if_neg hcond]
      have hlt : X.length < B := by
        rcases Nat.lt_or_ge X.length B with h | h
        · exact h
        · exact absurd ⟨hB, h⟩ hcond
      exact ⟨hlt, rfl⟩

theorem sigFeedAll_spec (B S : Nat) (k : SignatureType) (hB : 0 < B) :
    ∀ (chunks : List (List Nat)) (X E : List Nat), X.length < B →
      sigFinish B S k (chunks.foldl (sigFeed B S k) { buf := X, entries := E })
        = beBytes 4 (sigMagicVal k) ++ beBytes 4 B ++ beBytes 4 S ++ E ++
          ((chunksOf B (X ++ chunks.flatten).length (X ++ chunks.flatten)).map
            (sigEntry S k)).flatten := by
  intro chunks
  induction chunks with
  | nil =>
    intro X E hX
    simp only [List.foldl_nil, List.flatten_nil, List.append_nil]
    cases X with
    | nil =>
      simp [sigFinish, chunksOf]
    | cons x xs =>
      rw [chunksOf_cons_general B hB _ (by simp)]
      have hdrop : (x :: xs).drop B = [] := List.drop_of_length_le (by omega)
      have htake : (x :: xs).take B = x :: xs := List.take_of_length_le (by omega)
      rw [hdrop, htake]
      simp [sigFinish, chunksOf, List.append_assoc]
  | cons c cs ih =>
    intro X E hX
    rw [List.foldl_cons, sigFeed]
    obtain ⟨h1, h2⟩ := sigDrain_spec B S k hB (X.length + c.length) (X ++ c) E cs.flatten
      (by simp)
    rw [ih _ _ h1]
    simp only [List.flatten_cons, List.append_assoc] at h2 ⊢
    rw [h2]

theorem sigFeedAll_eq (B S : Nat) (k : SignatureType) (hB : 0 < B)
    (chunks : List (List Nat)) :
    sigFeedAll B S k chunks = signatureBytes B S k chunks.flatten := by
  rw [sigFeedAll, sigFeedAll_spec B S k hB chunks [] [] (by simpa using hB)]
  simp [signatureBytes, List.append_assoc]

/-! ## Inversion of a successful Delta construction. -/

theorem deltaNew_ok_inv (n : List Nat) (src : ByteSource) (st : DeltaState)
    (h : Delta.new n src = .ok st) :
    st.newData = n ∧ loadSig src.chunks.flatten = .ok st.sumset := by
  unfold Delta.new at h
  cases hte : src.tailErr with
  | some e =>
    simp only [consumeInput, hte] at h
    exact Except.noConfusion h
  | none =>
    simp only [consumeInput, hte] at h
    cases hl : loadSig src.chunks.flatten with
    | error e => rw [hl] at h; cases h
    | ok ss =>
      rw [hl] at h
      injection h with h2
      subst h2
      exact ⟨rfl, rfl⟩

/-! ## Claim theorems. -/

/-- C1, counterexample: the round-trip law as stated (for every base, new and
valid configuration the patch output equals new) is false.  With the valid
configuration block_len 3, strong_len 1, MD4, the blocks cexBase and cexNew
collide on both the rolling checksum and the 1-byte truncated MD4 strong sum,
so the delta of cexNew against cexBase's signature is a copy of cexBase's
block and patching reproduces cexBase, not cexNew. -/
theorem c1_round_trip_counterexample :
    ¬ roundTrip 3 1 SignatureType.MD4 cexBase cexNew = .ok cexNew := by
  intro h
  have hbase : roundTrip 3 1 SignatureType.MD4 cexBase cexNew = .ok cexBase := by rfl
  rw [hbase] at h
  injection h with h2
  exact absurd h2 (by decide)

/-- C1, amended: for every base and new of realistic size (below 2^64 bytes)
and every valid configuration (positive block_len below 2^32, positive
strong_len at most the digest length), provided no window of new collides with
a signature entry of base on both checksums while differing in content,
applying to base the delta computed from new and the signature of base
reconstructs new exactly. -/
theorem c1_round_trip_amended (B S : Nat) (k : SignatureType) (base n : List Nat)
    (hB : 0 < B) (hB32 : B < 2^32) (hS : 0 < S) (hSmax : S ≤ hashLength k)
    (hbase64 : base.length < 2^64) (hn64 : n.length < 2^64)
    (hnc : noCollision base n (mkSumset B S k base) = true) :
    roundTrip B S k base n = .ok n :=
  roundTrip_of_noCollision B S k base n hB hB32 hS hSmax hbase64 hn64 hnc

/-- Witness for C1: a concrete collision-free instance of the amended law. -/
theorem c1_round_trip_amended_witness :
    roundTrip 2 5 SignatureType.MD4 [1, 2, 3] [1, 2, 3, 4] = .ok [1, 2, 3, 4] :=
  c1_round_trip_amended 2 5 SignatureType.MD4 [1, 2, 3] [1, 2, 3, 4]
    (by decide) (by decide) (by decide) (by decide) (by decide) (by decide) (by decide)

/-- C2: signature generation and delta computation are deterministic.  Two
signature runs over the same base bytes, however the input is chunked into
reads and however the output is pulled, return byte-identical signatures; two
delta constructions over the same new data and signature bytes, however the
signature source is chunked and however the delta output is pulled, return
byte-identical deltas. -/
theorem c2_determinism (B S : Nat) (k : SignatureType) (hB : 0 < B)
    (c1 c2 : List (List Nat)) (hj : c1.flatten = c2.flatten)
    (caps1 caps2 : List Nat) (hc1 : ∀ c ∈ caps1, 0 < c) (hc2 : ∀ c ∈ caps2, 0 < c)
    (f1 f2 : Nat)
    (hf1 : (sigFeedAll B S k c1).length + 1 < f1)
    (hf2 : (sigFeedAll B S k c2).length + 1 < f2)
    (n : List Nat) (src1 src2 : ByteSource) (st1 st2 : DeltaState)
    (hsrc : consumeInput src1 = consumeInput src2)
    (h1 : Delta.new n src1 = .ok st1) (h2 : Delta.new n src2 = .ok st2)
    (g1 g2 : Nat) (dcaps1 dcaps2 : List Nat)
    (hdc1 : ∀ c ∈ dcaps1, 0 < c) (hdc2 : ∀ c ∈ dcaps2, 0 < c)
    (hg1 : (Delta.output st1).length + 1 < g1)
    (hg2 : (Delta.output st2).length + 1 < g2) :
    drainDriver f1 caps1 (mkDriver (sigFeedAll B S k c1))
      = drainDriver f2 caps2 (mkDriver (sigFeedAll B S k c2))
    ∧ drainDriver g1 dcaps1 (mkDriver (Delta.output st1))
      = drainDriver g2 dcaps2 (mkDriver (Delta.output st2)) := by
  have hsame : st1 = st2 := by
    have heq : Delta.new n src1 = Delta.new n src2 := by
      unfold Delta.new
      rw [hsrc]
    rw [h1, h2] at heq
    injection heq
  constructor
  · rw [drainDriver_mkDriver _ _ _ hf1 hc1, drainDriver_mkDriver _ _ _ hf2 hc2,
      sigFeedAll_eq B S k hB c1, sigFeedAll_eq B S k hB c2, hj]
  · subst hsame
    rw [drainDriver_mkDriver _ _ _ hg1 hdc1, drainDriver_mkDriver _ _ _ hg2 hdc2]

/-- Witness for C2: the same base delivered as one chunk or two, pulled with
different capacities, and the same signature delivered as one chunk or with an
empty first read. -/
theorem c2_determinism_witness :
    drainDriver 64 [3, 1] (mkDriver (sigFeedAll 2 5 SignatureType.MD4 [[1, 2, 3]]))
      = drainDriver 64 [] (mkDriver (sigFeedAll 2 5 SignatureType.MD4 [[1], [2, 3]]))
    ∧ drainDriver 64 [5] (mkDriver (Delta.output
        { sumset := mkSumset 2 5 SignatureType.MD4 [1, 2, 3], newData := [9, 9, 9] }))
      = drainDriver 64 [2, 2] (mkDriver (Delta.output
        { sumset := mkSumset 2 5 SignatureType.MD4 [1, 2, 3], newData := [9, 9, 9] })) :=
  c2_determinism 2 5 SignatureType.MD4 (by decide)
    [[1, 2, 3]] [[1], [2, 3]] (by decide)
    [3, 1] [] (by decide) (by decide)
    64 64 (by decide) (by decide)
    [9, 9, 9]
    { chunks := [signatureBytes 2 5 SignatureType.MD4 [1, 2, 3]], tailErr := none }
    { chunks := [[], signatureBytes 2 5 SignatureType.MD4 [1, 2, 3]], tailErr := none }
    { sumset := mkSumset 2 5 SignatureType.MD4 [1, 2, 3], newData := [9, 9, 9] }
    { sumset := mkSumset 2 5 SignatureType.MD4 [1, 2, 3], newData := [9, 9, 9] }
    (by rfl) (by rfl) (by rfl)
    64 64 [5] [2, 2] (by decide) (by decide) (by decide) (by decide)

/-- C3: the signature of the test string DATA with block_len 10, strong_len 5
and MD4 is exactly the fixed 39-byte golden vector. -/
theorem c3_signature_golden_vector :
    (Signature.new testData 10 5 SignatureType.MD4).map Signature.output
      = .ok goldenSignature ∧ goldenSignature.length = 39 :=
  ⟨rfl, rfl⟩

/-- C4: the delta of the test string DATA2 against the golden MD4 signature of
DATA is exactly the fixed 26-byte golden vector. -/
theorem c4_delta_golden_vector :
    (Delta.new testData2 { chunks := [goldenSignature], tailErr := none }).map Delta.output
      = .ok goldenDelta ∧ goldenDelta.length = 26 :=
  ⟨rfl, rfl⟩

/-- C5: applying the golden delta to the base DATA (Patch construction
succeeds and replaying the delta commands against the base) reproduces DATA2
exactly. -/
theorem c5_patch_golden_vector :
    Patch.new testData goldenDelta = some (.ok (testData, goldenDelta))
    ∧ applyDelta testData goldenDelta = .ok testData2 :=
  ⟨rfl, rfl⟩

/-- C6: the copy callback of src/src/lib.rs issues a single read and reports
RS_DONE even when that read is short: on a base source that returns at most
one byte per read, a copy of length 2 delivers only one byte, whereas the
read-exactly-length loop of the spec obtains the full span. -/
theorem c6_copy_cb_single_read :
    patchCopyCb { data := [7, 8], maxRead := 1 } 0 2 = (RsResult.Done, [7])
    ∧ readExactLoop { data := [7, 8], maxRead := 1 } 2 0 2 = [7, 8] :=
  ⟨rfl, rfl⟩

/-- C7: once a pull of a driver has returned an error, every subsequent pull
returns the same error immediately and leaves the driver state untouched, so
the engine is never re-invoked. -/
theorem c7_pull_error_latches (st : DriverState) (cap : Nat) (e : RsError)
    (st' : DriverState) (h : pull st cap = (.error e, st')) (cap' : Nat) :
    pull st' cap' = (.error e, st') :=
  pull_latches st cap e st' h cap'

/-- Witness for C7: a driver whose engine fails with Mem on the first step. -/
theorem c7_pull_error_latches_witness :
    pull { steps := [.fail RsError.Mem], buf := [], failed := some RsError.Mem } 7
      = (.error RsError.Mem,
         { steps := [.fail RsError.Mem], buf := [], failed := some RsError.Mem }) :=
  c7_pull_error_latches
    { steps := [.fail RsError.Mem], buf := [], failed := none } 1 RsError.Mem
    { steps := [.fail RsError.Mem], buf := [], failed := some RsError.Mem } (by rfl) 7

/-- C8: Delta construction consumes the whole signature source eagerly: a
reading error of the source and a decoding error of the signature are both
reported by Delta.new itself, and once construction succeeded the delta
output is a function of the retained sumset and the new data alone — the
signature source is not consulted again. -/
theorem c8_delta_new_eager (n : List Nat) (src : ByteSource) (e : RsError) :
    (src.tailErr = some e → Delta.new n src = .error e)
    ∧ (src.tailErr = none → loadSig src.chunks.flatten = .error e →
        Delta.new n src = .error e)
    ∧ (∀ src' st st', Delta.new n src = .ok st → Delta.new n src' = .ok st' →
        st.sumset = st'.sumset → Delta.output st = Delta.output st') := by
  refine ⟨?_, ?_, ?_⟩
  · intro hte
    unfold Delta.new
    simp only [consumeInput, hte]
  · intro hte hl
    unfold Delta.new
    simp only [consumeInput, hte, hl]
  · intro src' st st' h1 h2 hss
    obtain ⟨hn1, _⟩ := deltaNew_ok_inv n src st h1
    obtain ⟨hn2, _⟩ := deltaNew_ok_inv n src' st' h2
    unfold Delta.output
    rw [hss, hn1, hn2]

/-- Witness for C8: a source failing with Mem, a truncated signature, and two
differently chunked sources of the same valid signature. -/
theorem c8_delta_new_eager_witness :
    Delta.new [1] { chunks := [[0x72]], tailErr := some RsError.Mem } = .error RsError.Mem
    ∧ Delta.new [1] { chunks := [[0x72]], tailErr := none }
        = .error (RsError.Io RsIoKind.UnexpectedEof)
    ∧ Delta.output { sumset := mkSumset 2 5 SignatureType.MD4 [1, 2, 3], newData := [9] }
        = Delta.output { sumset := mkSumset 2 5 SignatureType.MD4 [1, 2, 3], newData := [9] } :=
  ⟨(c8_delta_new_eager [1] { chunks := [[0x72]], tailErr := some RsError.Mem }
      RsError.Mem).1 rfl,
   (c8_delta_new_eager [1] { chunks := [[0x72]], tailErr := none }
      (RsError.Io RsIoKind.UnexpectedEof)).2.1 rfl (by rfl),
   (c8_delta_new_eager [9]
      { chunks := [signatureBytes 2 5 SignatureType.MD4 [1, 2, 3]], tailErr := none }
      RsError.Mem).2.2
    { chunks := [[], signatureBytes 2 5 SignatureType.MD4 [1, 2, 3]], tailErr := none }
    { sumset := mkSumset 2 5 SignatureType.MD4 [1, 2, 3], newData := [9] }
    { sumset := mkSumset 2 5 SignatureType.MD4 [1, 2, 3], newData := [9] }
    (by rfl) (by rfl) rfl⟩

/-- C9: Signature construction never fails for the enum configurations (both
hash kinds map to magics the native engine accepts), a null job from
rs_sig_begin is reported as Err(BadMagic), and BadMagic is the only error
variant Signature construction can produce. -/
theorem c9_signature_new_errors (input : List Nat) (B S m : Nat) (k : SignatureType) :
    Signature.new input B S k
      = .ok { blockLen := B, strongLen := S, kind := k, input := input }
    ∧ (rsSigBegin m = none → signatureNewRaw input B S m = .error RsError.BadMagic)
    ∧ (∀ e, signatureNewRaw input B S m = .error e → e = RsError.BadMagic) := by
  refine ⟨?_, ?_, ?_⟩
  · cases k <;> rfl
  · intro hm
    unfold signatureNewRaw
    rw [hm]
  · intro e he
    unfold signatureNewRaw at he
    cases hm : rsSigBegin m with
    | none =>
      rw [hm] at he
      injection he with h2
      exact h2.symm
    | some u =>
      rw [hm] at he
      cases he

/-- Witness for C9: an accepted MD4 configuration and the unknown magic 0. -/
theorem c9_signature_new_errors_witness :
    Signature.new [1, 2] 3 4 SignatureType.MD4
      = .ok { blockLen := 3, strongLen := 4, kind := SignatureType.MD4, input := [1, 2] }
    ∧ signatureNewRaw [1, 2] 3 4 0 = .error RsError.BadMagic :=
  ⟨(c9_signature_new_errors [1, 2] 3 4 0 SignatureType.MD4).1,
   (c9_signature_new_errors [1, 2] 3 4 0 SignatureType.MD4).2.1 (by rfl)⟩

/-- C10: Patch construction never surfaces an Err value: for every base and
delta it returns Ok (none would model the aborted assertion, which the
always-succeeding native patch job never triggers). -/
theorem c10_patch_new_total (base delta : List Nat) :
    Patch.new base delta = some (.ok (base, delta))
    ∧ ∀ e, Patch.new base delta ≠ some (.error e) := by
  constructor
  · rfl
  · intro e h
    rw [show Patch.new base delta = some (.ok (base, delta)) from rfl] at h
    injection h with h2
    exact Except.noConfusion h2

/-- Witness for C10: a concrete base and delta. -/
theorem c10_patch_new_total_witness :
    Patch.new [1] [2] = some (.ok ([1], [2]))
    ∧ Patch.new [1] [2] ≠ some (.error RsError.Mem) :=
  ⟨(c10_patch_new_total [1] [2]).1, (c10_patch_new_total [1] [2]).2 RsError.Mem⟩

end Rsync
